import Mathlib

/-!
# KZG polynomial commitments: a shallow embedding

This file embeds the core of the `kzg-polynomial-commitments` repository
(`src/polynomials.rs` and `src/polynomial_commitments.rs`) and proves the
spec's claims about it.

The external `blstrs` library provides the BLS12-381 scalar field and the
prime-order pairing groups `G1`, `G2` with their generators and the bilinear
pairing.  All three groups are cyclic of the scalar-field order `r`, so we
model group elements by their discrete logarithms with respect to the
designated generators: a `G1` element `a · G1_generator` is modelled as
`a : ZMod r`, likewise for `G2`, and the pairing
`e(a · G1gen, b · G2gen) = (a * b) · GTgen` is modelled as multiplication in
`ZMod r`.  The pairing is nondegenerate on prime-order groups, so equality of
target-group elements is exactly equality of the products of the discrete
logarithms; this makes the model faithful for every claim below.

Rust panics (`unwrap` on `None`, out-of-bounds indexing, explicit `panic!`
calls) are modelled by `Option.none` results; fallible Rust functions
returning `Result` are modelled with `Except`.
-/

namespace KZG

/-- Order of the BLS12-381 scalar field (the modulus of `blstrs::Scalar`). -/
def r : ℕ :=
  52435875175126190479447740508185965837690552500527637822603658699938581184513

instance : Fact (1 < r) := ⟨by norm_num [r]⟩

/-- `blstrs::Scalar`: an element of the scalar field. -/
abbrev Scalar := ZMod r

/-- A `G1Projective` point, modelled by its discrete log w.r.t. the `G1` generator. -/
abbrev G1 := ZMod r

/-- A `G2Projective` point, modelled by its discrete log w.r.t. the `G2` generator. -/
abbrev G2 := ZMod r

/-- A target-group element, modelled by its discrete log w.r.t. `e(G1gen, G2gen)`. -/
abbrev GT := ZMod r

/-- `G1Projective::generator()`. -/
def g1gen : G1 := 1

/-- `G2Projective::generator()`. -/
def g2gen : G2 := 1

/-- `blstrs::pairing` on the discrete-log model: `e(a·G1gen, b·G2gen) = (a*b)·GTgen`. -/
def pairing (a : G1) (b : G2) : GT := a * b

/-- `Scalar::from(u: u64)`: a 64-bit integer cast into the scalar field.  Both
the trapdoor in `setup` and the padding coefficients in `adjust_to_degree` are
produced this way from `u64` random draws. -/
def scalarFromU64 (u : ℕ) : Scalar := ((u % 2 ^ 64 : ℕ) : Scalar)

/-- `Polynomial` is a dense coefficient vector, index `i` = coefficient of `x^i`. -/
abbrev Poly := List Scalar

/-- The summation loop of `Polynomial::evaluate`, carrying the running index:
`total += pow(point, i) * coefficient`. -/
def evalFrom (t : Scalar) : Poly → ℕ → Scalar
  | [], _ => 0
  | c :: rest, i => t ^ i * c + evalFrom t rest (i + 1)

/-- `Polynomial::evaluate(point)`: `Σ_i point^i * coeff[i]`. -/
def evaluate (p : Poly) (t : Scalar) : Scalar := evalFrom t p 0

/-- `Polynomial::is_zero`: empty, or every coefficient is zero. -/
def isZeroPoly (p : Poly) : Bool := p.isEmpty || p.all (fun c => decide (c = 0))

/-- `Polynomial::leading_coefficient`: the last stored coefficient, if any. -/
def leadingCoefficient (p : Poly) : Option Scalar := p.getLast?

/-- `Scalar::invert` (as used via `.unwrap()`): the field inverse, `none` on zero. -/
def invert (s : Scalar) : Option Scalar := if s = 0 then none else some s⁻¹

/-- `Polynomial::adjust_to_degree(d)`: pad with fresh `u64`-cast random scalars
drawn in order from `rng` when too short, truncate to the first `d`
coefficients when too long, otherwise unchanged. -/
def adjustToDegree (p : Poly) (d : ℕ) (rng : ℕ → ℕ) : Poly :=
  if p.length < d then
    p ++ (List.range (d - p.length)).map (fun i => scalarFromU64 (rng i))
  else if d < p.length then p.take d
  else p

/-- The `while let Some(true) = remainder.0.last() ... pop()` loop of division:
drop trailing zero coefficients. -/
def stripTrailingZeros (l : Poly) : Poly :=
  (l.reverse.dropWhile (fun c => decide (c = 0))).reverse

/-- The inner `for` loop of division: subtract `c * x^k * divisor` from the
remainder, in place at positions `k, k+1, ..., k + divisor.len - 1`. -/
def applySubtraction (rem dv : Poly) (k : ℕ) (c : Scalar) : Poly :=
  rem.take k ++ List.zipWith (fun a b => a - c * b) (rem.drop k) dv ++
    rem.drop (k + dv.length)

/-- The `while !remainder.is_zero() && remainder.len() >= divisor.len()` loop of
`Div::div`, with explicit fuel (the Rust loop strictly shrinks the remainder
each iteration, so `dividend.length + 1` fuel always suffices).  Returns the
final `(quotient, remainder)` pair of loop state. -/
def divLoop (dv : Poly) (inv : Scalar) : ℕ → Poly → Poly → Poly × Poly
  | 0, q, rem => (q, rem)
  | fuel + 1, q, rem =>
    if isZeroPoly rem = false ∧ dv.length ≤ rem.length then
      let c := (rem.getLast?.getD 0) * inv
      let k := rem.length - dv.length
      divLoop dv inv fuel (q.set k c)
        (stripTrailingZeros (applySubtraction rem dv k c))
    else (q, rem)

/-- `impl Div for Polynomial` (`dividend / divisor`).  `none` models the panics
(`panic!("Dividing by zero polynomial")` and `invert().unwrap()` on a zero
leading coefficient). -/
def divPoly (p dv : Poly) : Option Poly :=
  if isZeroPoly p then some [0]
  else if isZeroPoly dv then none
  else if p.length < dv.length then some [0]
  else
    match leadingCoefficient dv with
    | none => none
    | some lc =>
      match invert lc with
      | none => none
      | some lcInv =>
        some (divLoop dv lcInv (p.length + 1)
          (List.replicate (p.length - dv.length + 1) 0) p).1

/-- `GlobalParameters { gs, hs }`. -/
structure GlobalParameters where
  gs : List G1
  hs : List G2
deriving DecidableEq

/-- `enum Error`. -/
inductive Error where
  | IncorrectDegree
  | SetupIncomplete
deriving DecidableEq

/-- `generate_tau_points`'s loop: `generator = generator * tau; push(generator)`,
iterated `n` times starting from `g`. -/
def tauPointsAux (tau : Scalar) (g : ZMod r) : ℕ → List (ZMod r)
  | 0 => []
  | n + 1 => (tau * g) :: tauPointsAux tau (tau * g) n

/-- `generate_tau_points(generator, tau, length)`: pushes `generator`, then runs
the loop `for _ in 1..length`. -/
def generateTauPoints (generator : ZMod r) (tau : Scalar) (length : ℕ) :
    List (ZMod r) :=
  generator :: tauPointsAux tau generator (length - 1)

/-- `PolynomialCommitment::setup(d)`, as a function of the sampled `u64`
trapdoor seed.  (The Rust draws `tau: u64 = rng.gen()` and casts it.) -/
def setup (tauSeed : ℕ) (d : ℕ) : GlobalParameters :=
  { gs := generateTauPoints g1gen (scalarFromU64 tauSeed) d
    hs := generateTauPoints g2gen (scalarFromU64 tauSeed) d }

/-- `G1Projective::multi_exp(bases, scalars)`: `Σ_i scalars[i] * bases[i]`. -/
def multiExp (bases : List G1) (scalars : List Scalar) : G1 :=
  (List.zipWith (fun g c => c * g) bases scalars).sum

/-- `PolynomialCommitment::commit`.  The scheme state
`self.global_parameters : Option<GlobalParameters>` is passed explicitly. -/
def commit (gp? : Option GlobalParameters) (p : Poly) : Except Error G1 :=
  match gp? with
  | none => .error .SetupIncomplete
  | some gp =>
    if p.length ≠ gp.gs.length then .error .IncorrectDegree
    else .ok (multiExp gp.gs p)

/-- `PolynomialCommitment::create_witness`.  `none` models the panics: indexing
`polynomial.0[0]` on an empty polynomial, `global_parameters.unwrap()` on an
uninitialized scheme, and the slice `gs[..len]` when the quotient is longer
than the SRS. -/
def createWitness (gp? : Option GlobalParameters) (p : Poly) (x : Scalar) :
    Option (G1 × Scalar) :=
  if p.isEmpty then none
  else
    let evaluation := evaluate p x
    let wp := p.set 0 (p.getD 0 0 - evaluation)
    match divPoly wp [-x, 1] with
    | none => none
    | some q =>
      match gp? with
      | none => none
      | some gp =>
        if q.length ≤ gp.gs.length then
          some (multiExp (gp.gs.take q.length) q, evaluation)
        else none

/-- `PolynomialCommitment::verify_evaluation`.  `none` models the panics:
`global_parameters.unwrap()` on an uninitialized scheme and the out-of-bounds
index `hs[1]` on an SRS of length `< 2`. -/
def verifyEvaluation (gp? : Option GlobalParameters) (C : G1)
    (point evaluation : Scalar) (W : G1) : Option Bool :=
  match gp? with
  | none => none
  | some gp =>
    match gp.hs.get? 1 with
    | none => none
    | some h1 =>
      let lhs := pairing (C + (-evaluation) * g1gen) g2gen
      let rhs := pairing W (h1 + (-point) * g2gen)
      some (decide (lhs = rhs))

/-- Horner-form semantics of a coefficient list; used only inside proofs to
reason about `evaluate`, which iterates the sum `Σ t^i * c_i` instead. -/
def hEval (p : Poly) (t : Scalar) : Scalar :=
  match p with
  | [] => 0
  | c :: rest => c + t * hEval rest t

/-- Modelled from the spec (§4.3 `create_witness`), for comparison with the
source's `createWitness`: the spec additionally prescribes
"Degree-adjust the quotient to the SRS length (pad with random high-degree
coefficients if short)" before committing the quotient with `commit`; this
step is absent from the source. -/
def createWitnessSpec (gp : GlobalParameters) (p : Poly) (x : Scalar)
    (rng : ℕ → ℕ) : Option (G1 × Scalar) :=
  if p.isEmpty then none
  else
    let evaluation := evaluate p x
    let wp := p.set 0 (p.getD 0 0 - evaluation)
    match divPoly wp [-x, 1] with
    | none => none
    | some q =>
      match commit (some gp) (adjustToDegree q gp.gs.length rng) with
      | .error _ => none
      | .ok w => some (w, evaluation)

/-! ## Basic lemmas about the polynomial semantics -/

lemma inv_one_scalar : (1 : Scalar)⁻¹ = 1 := by
  have h := ZMod.mul_inv_eq_gcd (1 : ZMod r)
  rw [ZMod.val_one, one_mul, Nat.gcd_one_left, Nat.cast_one] at h
  exact h

lemma invert_one : invert 1 = some 1 := by
  rw [invert, if_neg (one_ne_zero), inv_one_scalar]

lemma evalFrom_eq_hEval (t : Scalar) : ∀ (l : Poly) (i : ℕ),
    evalFrom t l i = t ^ i * hEval l t := by
  intro l
  induction l with
  | nil => intro i; simp [evalFrom, hEval]
  | cons c rest ih =>
    intro i
    rw [evalFrom, hEval, ih, pow_succ]
    ring

lemma evaluate_eq_hEval (p : Poly) (t : Scalar) : evaluate p t = hEval p t := by
  rw [evaluate, evalFrom_eq_hEval, pow_zero, one_mul]

lemma hEval_append (A B : Poly) (t : Scalar) :
    hEval (A ++ B) t = hEval A t + t ^ A.length * hEval B t := by
  induction A with
  | nil => simp [hEval]
  | cons c rest ih =>
    rw [List.cons_append, hEval, hEval, ih, List.length_cons, pow_succ]
    ring

lemma hEval_replicate_zero (n : ℕ) (t : Scalar) :
    hEval (List.replicate n 0) t = 0 := by
  induction n with
  | zero => rfl
  | succ m ih => rw [List.replicate_succ, hEval, ih]; ring

lemma hEval_zero_of_isZero {p : Poly} (h : isZeroPoly p = true) (t : Scalar) :
    hEval p t = 0 := by
  induction p with
  | nil => rfl
  | cons c rest ih =>
    rw [isZeroPoly] at h
    simp only [List.isEmpty_cons, Bool.false_or, List.all_cons,
      Bool.and_eq_true, decide_eq_true_eq] at h
    rw [hEval, h.1, ih]
    · ring
    · rw [isZeroPoly]; simp only [h.2, Bool.or_true]

lemma hEval_set (c t : Scalar) : ∀ (l : Poly) (k : ℕ), k < l.length →
    hEval (l.set k c) t = hEval l t + (c - l.getD k 0) * t ^ k := by
  intro l
  induction l with
  | nil => intro k hk; simp at hk
  | cons a rest ih =>
    intro k hk
    cases k with
    | zero => simp [hEval]; ring
    | succ m =>
      rw [List.set_cons_succ, hEval, hEval,
        ih m (by simpa using Nat.lt_of_succ_lt_succ hk),
        List.getD_cons_succ, pow_succ]
      ring

lemma hEval_take_drop (l : Poly) (k : ℕ) (hk : k ≤ l.length) (t : Scalar) :
    hEval l t = hEval (l.take k) t + t ^ k * hEval (l.drop k) t := by
  conv_lhs => rw [← List.take_append_drop k l]
  rw [hEval_append, List.length_take, min_eq_left hk]

lemma hEval_zipWith_sub (c t : Scalar) : ∀ (Y X : Poly), Y.length ≤ X.length →
    hEval (List.zipWith (fun a b => a - c * b) X Y) t
      = hEval (X.take Y.length) t - c * hEval Y t := by
  intro Y
  induction Y with
  | nil => intro X _; simp [hEval]
  | cons y ys ih =>
    intro X hX
    cases X with
    | nil => simp at hX
    | cons x xs =>
      rw [List.zipWith_cons_cons, hEval, List.length_cons, List.take_succ_cons,
        hEval, hEval, ih xs (by simpa using Nat.le_of_succ_le_succ hX)]
      ring

lemma applySubtraction_length (rem dv : Poly) (k : ℕ) (c : Scalar)
    (h : k + dv.length ≤ rem.length) :
    (applySubtraction rem dv k c).length = rem.length := by
  rw [applySubtraction]
  simp only [List.length_append, List.length_take, List.length_zipWith,
    List.length_drop]
  omega

lemma applySubtraction_eval (rem dv : Poly) (k : ℕ) (c t : Scalar)
    (h : k + dv.length ≤ rem.length) :
    hEval (applySubtraction rem dv k c) t
      = hEval rem t - c * t ^ k * hEval dv t := by
  have hk : k ≤ rem.length := le_trans (Nat.le_add_right k dv.length) h
  have hdv : dv.length ≤ (rem.drop k).length := by
    rw [List.length_drop]; omega
  have hzl : (List.zipWith (fun a b => a - c * b) (rem.drop k) dv).length
      = dv.length := by
    rw [List.length_zipWith]; omega
  have hdd : (rem.drop k).drop dv.length = rem.drop (k + dv.length) := by
    rw [List.drop_drop]
  rw [applySubtraction, hEval_append, hEval_append,
    hEval_zipWith_sub c t dv _ hdv]
  simp only [List.length_append, List.length_take, min_eq_left hk, hzl]
  rw [hEval_take_drop rem k hk t, hEval_take_drop (rem.drop k) dv.length hdv t,
    hdd]
  ring

/-! ## Lemmas about `stripTrailingZeros` -/

lemma strip_decomp (l : Poly) :
    ∃ m, l = stripTrailingZeros l ++ List.replicate m 0 := by
  refine ⟨(l.reverse.takeWhile (fun c => decide (c = 0))).length, ?_⟩
  have h1 : l.reverse.takeWhile (fun c => decide (c = 0))
      = List.replicate (l.reverse.takeWhile (fun c => decide (c = 0))).length
          (0 : Scalar) := by
    apply List.eq_replicate_of_mem
    intro b hb
    simpa using List.mem_takeWhile_imp hb
  conv_lhs =>
    rw [← l.reverse_reverse,
      ← List.takeWhile_append_dropWhile (fun c => decide (c = 0)) l.reverse]
  rw [List.reverse_append, stripTrailingZeros, h1, List.reverse_replicate,
    List.length_replicate]

lemma hEval_strip (l : Poly) (t : Scalar) :
    hEval (stripTrailingZeros l) t = hEval l t := by
  obtain ⟨m, hm⟩ := strip_decomp l
  conv_rhs => rw [hm]
  rw [hEval_append, hEval_replicate_zero]
  ring

lemma strip_length_le (l : Poly) :
    (stripTrailingZeros l).length ≤ l.length := by
  have h := congrArg List.length (strip_decomp l).choose_spec
  rw [List.length_append, List.length_replicate] at h
  omega

lemma strip_length_lt (l : Poly) (hne : l ≠ []) (hz : l.getLast?.getD 0 = 0) :
    (stripTrailingZeros l).length < l.length := by
  cases hrev : l.reverse with
  | nil =>
    exact absurd (by simpa using congrArg List.reverse hrev) hne
  | cons a tail =>
    have h1 : l.getLast? = some a := by
      rw [← List.head?_reverse, hrev]; rfl
    have ha : a = 0 := by rw [h1] at hz; simpa using hz
    have h3 : l.length = tail.length + 1 := by
      have := congrArg List.length hrev
      simpa using this
    rw [stripTrailingZeros, hrev, ha, List.dropWhile_cons]
    simp only [decide_True, if_true, List.length_reverse]
    have h2 := (List.dropWhile_suffix (l := tail)
      (fun c => decide (c = 0))).length_le
    omega

lemma strip_append_zero (A : Poly) :
    stripTrailingZeros (A ++ [0]) = stripTrailingZeros A := by
  rw [stripTrailingZeros, stripTrailingZeros, List.reverse_append]
  simp [List.dropWhile_cons]

lemma strip_length_le_of_zeros (l : Poly) (m : ℕ)
    (h : ∀ i, m ≤ i → l.getD i 0 = 0) :
    (stripTrailingZeros l).length ≤ m := by
  induction l using List.reverseRecOn with
  | nil => simp [stripTrailingZeros]
  | append_singleton A a ih =>
    by_cases hcase : (A ++ [a]).length ≤ m
    · exact le_trans (strip_length_le _) hcase
    · have hAl : (A ++ [a]).length = A.length + 1 := by simp
      have hma : m ≤ A.length := by omega
      have ha : a = 0 := by
        have := h A.length hma
        rwa [List.getD_append_right A [a] 0 A.length le_rfl,
          Nat.sub_self] at this
      rw [ha, strip_append_zero]
      apply ih
      intro i hi
      by_cases hiA : i < A.length
      · have := h i hi
        rwa [List.getD_append A [a] 0 i hiA] at this
      · exact List.getD_eq_default A 0 (by omega)

/-! ## Lemmas about the division loop -/

lemma divLoop_fst_length (dv : Poly) (inv : Scalar) :
    ∀ (fuel : ℕ) (q rem : Poly),
      (divLoop dv inv fuel q rem).1.length = q.length := by
  intro fuel
  induction fuel with
  | zero => intro q rem; rfl
  | succ n ih =>
    intro q rem
    rw [divLoop]
    by_cases h : isZeroPoly rem = false ∧ dv.length ≤ rem.length
    · rw [if_pos h, ih, List.length_set]
    · rw [if_neg h]

lemma getD_set_ne (l : Poly) (k j : ℕ) (c : Scalar) (h : j ≠ k) :
    (l.set k c).getD j 0 = l.getD j 0 := by
  simp [List.getD_eq_getElem?_getD, List.getElem?_set, Ne.symm h]

/-- Unfolding lemma for one iteration of the division loop. -/
lemma divLoop_succ (dv : Poly) (inv : Scalar) (fuel : ℕ) (q rem : Poly) :
    divLoop dv inv (fuel + 1) q rem =
      if isZeroPoly rem = false ∧ dv.length ≤ rem.length then
        divLoop dv inv fuel
          (q.set (rem.length - dv.length) ((rem.getLast?.getD 0) * inv))
          (stripTrailingZeros (applySubtraction rem dv
            (rem.length - dv.length) ((rem.getLast?.getD 0) * inv)))
      else (q, rem) := rfl

lemma hEval_linear (a t : Scalar) : hEval [a, 1] t = a + t := by
  simp [hEval]

/-- After one monic-linear subtraction step the remainder's stored leading
coefficient has been cancelled to zero. -/
lemma applySub_monic_getLast (a : Scalar) (rem : Poly) (h2 : 2 ≤ rem.length) :
    (applySubtraction rem [a, 1] (rem.length - 2)
      ((rem.getLast?.getD 0) * 1)).getLast?.getD 0 = 0 := by
  have hdl : ([a, (1 : Scalar)]).length = 2 := rfl
  have hlen : (rem.drop (rem.length - 2)).length = 2 := by
    rw [List.length_drop]; omega
  obtain ⟨u, v, huv⟩ := List.length_eq_two.mp hlen
  have hrem : rem = rem.take (rem.length - 2) ++ [u, v] := by
    conv_lhs => rw [← List.take_append_drop (rem.length - 2) rem]
    rw [huv]
  have hlast : rem.getLast? = some v := by
    conv_lhs => rw [hrem]
    rw [List.getLast?_append]; rfl
  have hdrop2 : rem.drop (rem.length - 2 + 2) = [] := by
    have : rem.length - 2 + 2 = rem.length := by omega
    rw [this, List.drop_length]
  rw [applySubtraction, hdl, huv, hdrop2, hlast]
  simp only [List.zipWith_cons_cons, List.zipWith_nil_right,
    List.append_nil, Option.getD_some]
  rw [List.getLast?_append]
  simp only [List.getLast?_cons_cons, List.getLast?_singleton, Option.or_some,
    Option.getD_some]
  ring

/-- Main invariant of the division loop for a monic linear divisor `[a, 1]`
(the scheme's divisor is `[-point, 1]`): the loop maintains
`quotient * divisor + remainder`, and terminates with a remainder that is
zero or constant. -/
lemma divLoop_monic_spec (a : Scalar) : ∀ (fuel : ℕ) (q rem : Poly),
    rem.length ≤ fuel →
    rem.length ≤ q.length + 1 →
    (∀ j, j + 2 ≤ rem.length → q.getD j 0 = 0) →
    (∀ t, hEval (divLoop [a, 1] 1 fuel q rem).1 t * (a + t)
          + hEval (divLoop [a, 1] 1 fuel q rem).2 t
        = hEval q t * (a + t) + hEval rem t)
      ∧ ((divLoop [a, 1] 1 fuel q rem).2.length ≤ 1
          ∨ isZeroPoly (divLoop [a, 1] 1 fuel q rem).2 = true) := by
  intro fuel
  induction fuel with
  | zero =>
    intro q rem hfuel _ _
    have : rem = [] := List.length_eq_zero.mp (Nat.le_zero.mp hfuel)
    subst this
    exact ⟨fun t => rfl, Or.inl (by simp [divLoop])⟩
  | succ n ih =>
    intro q rem hfuel hql hzero
    rw [divLoop_succ]
    by_cases hcond : isZeroPoly rem = false ∧ ([a, (1:Scalar)]).length ≤ rem.length
    · rw [if_pos hcond]
      have hdl : ([a, (1 : Scalar)]).length = 2 := rfl
      have h2 : 2 ≤ rem.length := by rw [← hdl]; exact hcond.2
      have hk2 : rem.length - 2 + 2 = rem.length := by omega
      have happlen : (applySubtraction rem [a, 1] (rem.length - 2)
          ((rem.getLast?.getD 0) * 1)).length = rem.length := by
        apply applySubtraction_length
        rw [hdl]; omega
      have happne : applySubtraction rem [a, 1] (rem.length - 2)
          ((rem.getLast?.getD 0) * 1) ≠ [] := by
        intro hx
        rw [hx] at happlen
        simp at happlen
        omega
      have hstriplt : (stripTrailingZeros (applySubtraction rem [a, 1]
          (rem.length - 2) ((rem.getLast?.getD 0) * 1))).length < rem.length := by
        have h1 := strip_length_lt _ happne (applySub_monic_getLast a rem h2)
        rw [happlen] at h1
        exact h1
      have hknew : rem.length - ([a, (1:Scalar)]).length = rem.length - 2 := by
        rw [hdl]
      rw [hknew]
      have hqlen' : (q.set (rem.length - 2)
          ((rem.getLast?.getD 0) * 1)).length = q.length := List.length_set q _ _
      obtain ⟨ihEq, ihRem⟩ := ih (q.set (rem.length - 2) ((rem.getLast?.getD 0) * 1))
        (stripTrailingZeros (applySubtraction rem [a, 1] (rem.length - 2)
          ((rem.getLast?.getD 0) * 1)))
        (by omega)
        (by rw [hqlen']; omega)
        (by
          intro j hj
          have hjk : j ≠ rem.length - 2 := by omega
          rw [getD_set_ne q _ j _ hjk]
          exact hzero j (by omega))
      refine ⟨?_, ihRem⟩
      intro t
      rw [ihEq t]
      have hkq : rem.length - 2 < q.length := by omega
      rw [hEval_set _ t q _ hkq, hzero (rem.length - 2) (by omega),
        hEval_strip, applySubtraction_eval _ _ _ _ t (by rw [hdl]; omega),
        hEval_linear]
      ring
    · rw [if_neg hcond]
      refine ⟨fun t => rfl, ?_⟩
      by_cases hz : isZeroPoly rem = true
      · exact Or.inr hz
      · left
        have hzf : isZeroPoly rem = false := by
          cases hb : isZeroPoly rem
          · rfl
          · exact absurd hb hz
        have : ¬ ([a, (1:Scalar)]).length ≤ rem.length := by
          intro hle
          exact hcond ⟨hzf, hle⟩
        have hdl : ([a, (1 : Scalar)]).length = 2 := rfl
        rw [hdl] at this
        show rem.length ≤ 1
        omega

/-! ## Division by the scheme's monic linear divisor `[-x, 1]` -/

lemma isZero_linear (x : Scalar) : isZeroPoly [-x, 1] = false := by
  have h1 : (1 : Scalar) ≠ 0 := one_ne_zero
  simp [isZeroPoly, h1]

lemma getD_replicate_zero (m j : ℕ) :
    (List.replicate m (0 : Scalar)).getD j 0 = 0 := by
  by_cases h : j < m
  · rw [List.getD_eq_getElem?_getD]
    simp [List.getElem?_replicate, h]
  · exact List.getD_eq_default _ _ (by simpa using Nat.le_of_not_lt h)

lemma divPoly_linear_red (x : Scalar) (p : Poly) (hz : isZeroPoly p = false)
    (hp : 2 ≤ p.length) :
    divPoly p [-x, 1] = some (divLoop [-x, 1] 1 (p.length + 1)
      (List.replicate (p.length - 2 + 1) 0) p).1 := by
  rw [divPoly, if_neg (by simp [hz]), if_neg (by simp [isZero_linear x]),
    if_neg (by simp only [List.length_cons, List.length_nil]; omega)]
  rw [show leadingCoefficient [-x, (1:Scalar)] = some 1 from rfl]
  simp only [invert_one]
  norm_num

/-- Exactness of the scheme's polynomial division: dividing a polynomial of
stored length `≥ 2` by `x - point` yields a quotient `q` of length one less
with `q(t)·(t - point) = p(t) - p(point)` for every `t`. -/
lemma divPoly_linear (x : Scalar) (p : Poly) (hz : isZeroPoly p = false)
    (hp : 2 ≤ p.length) :
    ∃ q, divPoly p [-x, 1] = some q ∧ q.length = p.length - 1 ∧
      ∀ t, hEval q t * (t - x) = hEval p t - hEval p x := by
  rw [divPoly_linear_red x p hz hp]
  obtain ⟨hEq, hRem⟩ := divLoop_monic_spec (-x) (p.length + 1)
    (List.replicate (p.length - 2 + 1) 0) p (by omega)
    (by rw [List.length_replicate]; omega)
    (by intro j _; exact getD_replicate_zero _ j)
  refine ⟨_, rfl, ?_, ?_⟩
  · rw [divLoop_fst_length, List.length_replicate]; omega
  · have hx : hEval (divLoop [-x, 1] 1 (p.length + 1)
        (List.replicate (p.length - 2 + 1) 0) p).2 x = hEval p x := by
      have h := hEq x
      rw [hEval_replicate_zero] at h
      have hz0 : (-x + x) = 0 := by ring
      rw [hz0, mul_zero, mul_zero, zero_add, zero_add] at h
      exact h
    have hconst : ∀ t, hEval (divLoop [-x, 1] 1 (p.length + 1)
        (List.replicate (p.length - 2 + 1) 0) p).2 t = hEval p x := by
      intro t
      rcases hRem with hlen | hzR
      · cases hR : (divLoop [-x, 1] 1 (p.length + 1)
            (List.replicate (p.length - 2 + 1) 0) p).2 with
        | nil =>
          rw [hR] at hx
          exact hx
        | cons c rest =>
          rw [hR] at hlen
          cases rest with
          | nil =>
            rw [hR] at hx
            have h1 : hEval [c] t = c := by simp [hEval]
            have h2 : hEval [c] x = c := by simp [hEval]
            rw [h1, ← h2]
            exact hx
          | cons d rest2 => simp at hlen
      · rw [hEval_zero_of_isZero hzR]
        rw [hEval_zero_of_isZero hzR] at hx
        exact hx
    intro t
    have h := hEq t
    rw [hEval_replicate_zero, zero_mul, zero_add, hconst t] at h
    linear_combination h

/-! ## Lemmas about the SRS and multi-scalar multiplication -/

lemma zipWith_scale_sum (τ : Scalar) : ∀ (L : List G1) (Q : Poly),
    (List.zipWith (fun g c => c * g) (L.map (fun g => τ * g)) Q).sum
      = τ * (List.zipWith (fun g c => c * g) L Q).sum := by
  intro L
  induction L with
  | nil => intro Q; simp
  | cons g L ih =>
    intro Q
    cases Q with
    | nil => simp
    | cons c Q =>
      rw [List.map_cons, List.zipWith_cons_cons, List.zipWith_cons_cons,
        List.sum_cons, List.sum_cons, ih]
      ring

lemma multiExp_powers (τ : Scalar) : ∀ (Q : Poly) (m : ℕ), Q.length ≤ m →
    multiExp ((List.range m).map (fun i => τ ^ i)) Q = hEval Q τ := by
  intro Q
  induction Q with
  | nil =>
    intro m _
    rw [multiExp, List.zipWith_nil_right, List.sum_nil]
    rfl
  | cons c Q ih =>
    intro m hm
    cases m with
    | zero => simp at hm
    | succ m' =>
      rw [List.range_succ_eq_map, List.map_cons, multiExp,
        List.zipWith_cons_cons, List.sum_cons, List.map_map]
      have hmap : (List.range m').map ((fun i => τ ^ i) ∘ Nat.succ)
          = ((List.range m').map (fun i => τ ^ i)).map (fun g => τ * g) := by
        rw [List.map_map]
        apply List.map_congr_left
        intro i _
        simp only [Function.comp_apply, pow_succ]
        ring
      rw [hmap, zipWith_scale_sum]
      have hQ : Q.length ≤ m' := by simpa using Nat.le_of_succ_le_succ hm
      rw [show (List.zipWith (fun g c => c * g)
          ((List.range m').map (fun i => τ ^ i)) Q).sum
        = multiExp ((List.range m').map (fun i => τ ^ i)) Q from rfl, ih m' hQ,
        hEval, pow_zero]
      ring

lemma tauPointsAux_length (τ : Scalar) : ∀ (n : ℕ) (g : ZMod r),
    (tauPointsAux τ g n).length = n := by
  intro n
  induction n with
  | zero => intro g; rfl
  | succ m ih => intro g; rw [tauPointsAux, List.length_cons, ih]

lemma tauPointsAux_eq (τ : Scalar) : ∀ (n : ℕ) (g : ZMod r),
    tauPointsAux τ g n = (List.range n).map (fun i => τ ^ (i + 1) * g) := by
  intro n
  induction n with
  | zero => intro g; rfl
  | succ m ih =>
    intro g
    rw [tauPointsAux, ih (τ * g), List.range_succ_eq_map, List.map_cons,
      List.map_map]
    congr 1
    · rw [pow_one]
    · apply List.map_congr_left
      intro i _
      simp only [Function.comp_apply, pow_succ]
      ring

lemma generateTauPoints_length (g : ZMod r) (τ : Scalar) (d : ℕ) :
    (generateTauPoints g τ d).length = d - 1 + 1 := by
  rw [generateTauPoints, List.length_cons, tauPointsAux_length]

lemma generateTauPoints_one (τ : Scalar) (d : ℕ) (hd : 1 ≤ d) :
    generateTauPoints 1 τ d = (List.range d).map (fun i => τ ^ i) := by
  obtain ⟨m, rfl⟩ : ∃ m, d = m + 1 := ⟨d - 1, by omega⟩
  rw [generateTauPoints, Nat.add_sub_cancel, tauPointsAux_eq,
    List.range_succ_eq_map, List.map_cons, List.map_map, pow_zero]
  congr 1
  apply List.map_congr_left
  intro i _
  simp only [Function.comp_apply, pow_succ, mul_one]

lemma setup_gs (seed d : ℕ) (hd : 1 ≤ d) :
    (setup seed d).gs
      = (List.range d).map (fun i => (scalarFromU64 seed) ^ i) := by
  rw [setup]
  exact generateTauPoints_one _ d hd

lemma setup_hs (seed d : ℕ) (hd : 1 ≤ d) :
    (setup seed d).hs
      = (List.range d).map (fun i => (scalarFromU64 seed) ^ i) := by
  rw [setup]
  exact generateTauPoints_one _ d hd

lemma setup_hs_get1 (seed d : ℕ) (hd : 2 ≤ d) :
    (setup seed d).hs.get? 1 = some (scalarFromU64 seed) := by
  rw [setup_hs seed d (by omega)]
  rw [List.get?_eq_getElem?, List.getElem?_map, List.getElem?_range (by omega : 1 < d)]
  simp

/-! ## Division when the dividend's degree is below the divisor's -/

lemma set_replicate_zero : ∀ (n k : ℕ),
    (List.replicate n (0 : Scalar)).set k 0 = List.replicate n 0 := by
  intro n
  induction n with
  | zero => intro k; rfl
  | succ m ih =>
    intro k
    cases k with
    | zero => rw [List.replicate_succ, List.set_cons_zero]
    | succ j => rw [List.replicate_succ, List.set_cons_succ, ih j]

lemma zipWith_zero_c : ∀ (X Y : Poly),
    List.zipWith (fun a b => a - (0 : Scalar) * b) X Y = X.take Y.length := by
  intro X
  induction X with
  | nil => intro Y; simp
  | cons x xs ih =>
    intro Y
    cases Y with
    | nil => simp
    | cons y ys =>
      rw [List.zipWith_cons_cons, ih ys, List.length_cons, List.take_succ_cons]
      simp

lemma applySubtraction_zero_c (rem dv : Poly) (k : ℕ)
    (_h : k + dv.length ≤ rem.length) :
    applySubtraction rem dv k 0 = rem := by
  rw [applySubtraction, zipWith_zero_c, List.append_assoc]
  have h1 : rem.drop (k + dv.length) = (rem.drop k).drop dv.length := by
    rw [List.drop_drop]
  rw [h1, List.take_append_drop, List.take_append_drop]

lemma isZero_replicate (n : ℕ) : isZeroPoly (List.replicate n (0 : Scalar)) = true := by
  rw [isZeroPoly, Bool.or_eq_true]
  right
  rw [List.all_eq_true]
  intro x hx
  rw [List.eq_of_mem_replicate hx]
  exact decide_eq_true rfl

lemma getLast?_getD_eq (p : Poly) :
    p.getLast?.getD 0 = p.getD (p.length - 1) 0 := by
  rw [List.getLast?_eq_getElem?, List.getD_eq_getElem?_getD]

/-- When every dividend coefficient at index `≥ divisor.length - 1` is zero
(i.e. the dividend's degree is below the divisor's, the divisor's degree being
read off its stored length) and the divisor's stored leading coefficient is
invertible, the division loop runs one vacuous iteration and the quotient is a
nonempty all-zero vector. -/
lemma divPoly_shortdeg (p dv : Poly) (c : Scalar) (hzp : isZeroPoly p = false)
    (hlast : dv.getLast? = some c) (hc : c ≠ 0) (hlen : dv.length ≤ p.length)
    (hdeg : ∀ i, dv.length - 1 ≤ i → p.getD i 0 = 0) :
    divPoly p dv = some (List.replicate (p.length - dv.length + 1) 0) := by
  have hdvne : dv ≠ [] := by
    intro h
    rw [h] at hlast
    exact Option.noConfusion hlast
  have hdvlen1 : 1 ≤ dv.length := List.length_pos.mpr hdvne
  have hpne : p ≠ [] := by
    intro h
    rw [h] at hzp
    exact Bool.noConfusion hzp
  have hplen1 : 1 ≤ p.length := List.length_pos.mpr hpne
  have hzdv : isZeroPoly dv = false := by
    cases hb : isZeroPoly dv
    · rfl
    · exfalso
      rw [isZeroPoly, Bool.or_eq_true] at hb
      rcases hb with hb | hb
      · rw [List.isEmpty_iff] at hb
        exact hdvne hb
      · rw [List.all_eq_true] at hb
        have hmem : c ∈ dv := by
          have h2 := List.getLast?_eq_getLast dv hdvne
          rw [hlast] at h2
          rw [Option.some_inj] at h2
          rw [h2]
          exact List.getLast_mem hdvne
        have := hb c hmem
        rw [decide_eq_true_eq] at this
        exact hc this
  rw [divPoly, if_neg (by simp [hzp]), if_neg (by simp [hzdv]),
    if_neg (by omega)]
  rw [show leadingCoefficient dv = some c from hlast]
  have hinv : invert c = some c⁻¹ := by rw [invert, if_neg hc]
  simp only [hinv]
  -- first loop iteration: the leading remainder coefficient is a stored zero
  have hlead0 : p.getLast?.getD 0 = 0 := by
    rw [getLast?_getD_eq]
    exact hdeg (p.length - 1) (by omega)
  rw [divLoop_succ, if_pos ⟨hzp, hlen⟩, hlead0, zero_mul,
    applySubtraction_zero_c p dv _ (by omega), set_replicate_zero]
  -- second check: the stripped remainder is now shorter than the divisor
  have hstrip : (stripTrailingZeros p).length ≤ dv.length - 1 :=
    strip_length_le_of_zeros p (dv.length - 1) hdeg
  obtain ⟨L, hL⟩ : ∃ L, p.length = L + 1 := ⟨p.length - 1, by omega⟩
  have hcond2 : ¬ (isZeroPoly (stripTrailingZeros p) = false
      ∧ dv.length ≤ (stripTrailingZeros p).length) := by
    intro hcontr
    have := hcontr.2
    omega
  rw [hL, divLoop_succ, if_neg hcond2]

/-! ## Reduction lemmas for the scheme operations -/

instance : NeZero r := ⟨by norm_num [r]⟩

lemma scalarFromU64_val (u : ℕ) : (scalarFromU64 u).val = u % 2 ^ 64 := by
  have hlt : (2 : ℕ) ^ 64 < r := by norm_num [r]
  rw [scalarFromU64, ZMod.val_cast_of_lt
    (lt_trans (Nat.mod_lt _ (by norm_num)) hlt)]

lemma two_pow64_val : (((2 : ℕ) ^ 64 : ℕ) : Scalar).val = 2 ^ 64 :=
  ZMod.val_cast_of_lt (by norm_num [r])

lemma commit_red (gp : GlobalParameters) (p : Poly)
    (h : p.length = gp.gs.length) :
    commit (some gp) p = Except.ok (multiExp gp.gs p) := by
  simp only [commit]
  rw [if_neg (not_ne_iff.mpr h)]

lemma createWitness_red (gp : GlobalParameters) (p : Poly) (x : Scalar)
    (hp : p ≠ []) (q : Poly)
    (hdiv : divPoly (p.set 0 (p.getD 0 0 - evaluate p x)) [-x, 1] = some q)
    (hq : q.length ≤ gp.gs.length) :
    createWitness (some gp) p x
      = some (multiExp (gp.gs.take q.length) q, evaluate p x) := by
  have hpe : p.isEmpty = false := by
    cases p
    · exact absurd rfl hp
    · rfl
  simp only [createWitness, hpe, Bool.false_eq_true, if_false, hdiv]
  rw [if_pos hq]

lemma verify_red (gp : GlobalParameters) (C : G1) (x y : Scalar) (W : G1)
    (h1 : G2) (hh : gp.hs.get? 1 = some h1) :
    verifyEvaluation (some gp) C x y W
      = some (decide (pairing (C + (-y) * g1gen) g2gen
          = pairing W (h1 + (-x) * g2gen))) := by
  simp only [verifyEvaluation, hh]

lemma divPoly_of_isZero (p dv : Poly) (h : isZeroPoly p = true) :
    divPoly p dv = some [0] := by
  rw [divPoly, if_pos (by simp [h])]

/-- Evaluating the dividend `p - p(x)·e₀` built by `create_witness`. -/
lemma hEval_witness_dividend (p : Poly) (x : Scalar) (hp : p ≠ []) :
    ∀ t, hEval (p.set 0 (p.getD 0 0 - evaluate p x)) t
      = hEval p t - evaluate p x := by
  intro t
  have hlen : 0 < p.length := List.length_pos.mpr hp
  rw [hEval_set _ t p 0 hlen, pow_zero]
  ring

/-- A singleton polynomial evaluates to its constant term, so the witness
dividend of a length-1 polynomial is the stored zero polynomial `[0]`. -/
lemma witness_dividend_singleton (a : Scalar) (x : Scalar) :
    (([a] : Poly).set 0 (([a] : Poly).getD 0 0 - evaluate [a] x)) = [0] := by
  have h : evaluate [a] x = a := by
    rw [evaluate_eq_hEval]
    simp [hEval]
  rw [h]
  simp

/-! ## Claim theorems -/

/-- Claim C3: `commit` returns `SetupIncomplete` exactly when no setup has run;
otherwise `IncorrectDegree` exactly when the polynomial's coefficient length
differs from the stored SRS `gs` length; otherwise `Ok` of the
multi-scalar-multiplication `Σ coefficient[i] · gs[i]`. -/
theorem commit_cases (gp : GlobalParameters) (p : Poly) :
    commit none p = Except.error Error.SetupIncomplete
    ∧ (p.length ≠ gp.gs.length →
        commit (some gp) p = Except.error Error.IncorrectDegree)
    ∧ (p.length = gp.gs.length →
        commit (some gp) p = Except.ok (multiExp gp.gs p)) := by
  refine ⟨rfl, ?_, ?_⟩
  · intro h
    simp only [commit]
    rw [if_pos h]
  · intro h
    exact commit_red gp p h

/-- Witness for C3 at concrete inputs. -/
theorem commit_cases_witness :
    commit none ([] : Poly) = Except.error Error.SetupIncomplete
    ∧ commit (some ⟨[1], [1]⟩) ([4] ++ [4]) = Except.error Error.IncorrectDegree
    ∧ commit (some ⟨[1], [1]⟩) [2] = Except.ok (multiExp [1] [2]) :=
  ⟨(commit_cases ⟨[1], [1]⟩ []).1,
    (commit_cases ⟨[1], [1]⟩ ([4] ++ [4])).2.1 (by decide),
    (commit_cases ⟨[1], [1]⟩ [2]).2.2 (by decide)⟩

/-- Claim C4 (amended): `setup(d)` returns `gs` and `hs` of length exactly `d`
for every `d ≥ 1`; for `d = 0` both sequences instead have length 1 (the bare
generators), because `generate_tau_points` pushes the generator before its
`for _ in 1..length` loop. -/
theorem setup_srs_length (seed d : ℕ) (hd : 1 ≤ d) :
    (setup seed d).gs.length = d ∧ (setup seed d).hs.length = d := by
  have h1 := generateTauPoints_length g1gen (scalarFromU64 seed) d
  have h2 := generateTauPoints_length g2gen (scalarFromU64 seed) d
  constructor
  · show (generateTauPoints g1gen (scalarFromU64 seed) d).length = d
    omega
  · show (generateTauPoints g2gen (scalarFromU64 seed) d).length = d
    omega

/-- Witness for C4's amended theorem at `d = 3`. -/
theorem setup_srs_length_witness :
    (setup 0 3).gs.length = 3 ∧ (setup 0 3).hs.length = 3 :=
  setup_srs_length 0 3 (by decide)

/-- Counterexample to C4 as stated: `setup(0)` does not return empty
sequences; both sequences have length 1. -/
theorem setup_zero_counterexample :
    (setup 0 0).gs.length ≠ 0 ∧ (setup 0 0).gs.length = 1
      ∧ (setup 0 0).hs.length = 1 := by
  refine ⟨?_, rfl, rfl⟩
  decide

/-- Claim C5: `adjust_to_degree(p, d)` always yields length exactly `d`; a
short polynomial keeps its first `original_length` coefficients; a long one is
truncated to exactly its first `d` coefficients; an exact-length one is
unchanged.  Quantified over the stream of `u64` padding draws `rng`. -/
theorem adjustToDegree_spec (p : Poly) (d : ℕ) (rng : ℕ → ℕ) :
    (adjustToDegree p d rng).length = d
    ∧ (p.length < d → (adjustToDegree p d rng).take p.length = p)
    ∧ (d < p.length → adjustToDegree p d rng = p.take d)
    ∧ (p.length = d → adjustToDegree p d rng = p) := by
  refine ⟨?_, ?_, ?_, ?_⟩
  · rw [adjustToDegree]
    by_cases h1 : p.length < d
    · rw [if_pos h1, List.length_append, List.length_map, List.length_range]
      omega
    · rw [if_neg h1]
      by_cases h2 : d < p.length
      · rw [if_pos h2, List.length_take]
        omega
      · rw [if_neg h2]
        omega
  · intro h1
    rw [adjustToDegree, if_pos h1, List.take_left]
  · intro h2
    rw [adjustToDegree, if_neg (by omega), if_pos h2]
  · intro h3
    rw [adjustToDegree, if_neg (by omega), if_neg (by omega)]

/-- Witness for C5 at concrete inputs covering all three cases. -/
theorem adjustToDegree_spec_witness :
    (adjustToDegree [1, 2] 3 (fun _ => 5)).length = 3
    ∧ (adjustToDegree [1, 2] 3 (fun _ => 5)).take 2 = [1, 2]
    ∧ adjustToDegree [1, 2, 3] 2 (fun _ => 5) = [1, 2]
    ∧ adjustToDegree [4, 5] 2 (fun _ => 5) = [4, 5] :=
  ⟨(adjustToDegree_spec [1, 2] 3 (fun _ => 5)).1,
    (adjustToDegree_spec [1, 2] 3 (fun _ => 5)).2.1 (by decide),
    (adjustToDegree_spec [1, 2, 3] 2 (fun _ => 5)).2.2.1 (by decide),
    (adjustToDegree_spec [4, 5] 2 (fun _ => 5)).2.2.2 (by decide)⟩

/-- Claim C7 (amended): only `commit` reports `SetupIncomplete` as a returned
error value.  `create_witness` and `verify_evaluation` have no error channel
at all (their return types are `(G1Projective, Scalar)` and `bool`); invoked
before setup they panic on `global_parameters.unwrap()`, modelled here as
`none`. -/
theorem uninitialized_behaviour (p : Poly) (x : Scalar) (C : G1)
    (y : Scalar) (W : G1) :
    commit none p = Except.error Error.SetupIncomplete
    ∧ createWitness none p x = none
    ∧ verifyEvaluation none C x y W = none := by
  refine ⟨rfl, ?_, rfl⟩
  simp only [createWitness]
  by_cases hp : p.isEmpty = true
  · rw [if_pos hp]
  · rw [if_neg hp]
    cases hdiv : divPoly (p.set 0 (p.getD 0 0 - evaluate p x)) [-x, 1] with
    | none => simp only [hdiv]
    | some q => simp only [hdiv]

/-- Counterexample to C7 as stated: on an uninitialized scheme,
`create_witness` and `verify_evaluation` do not return a `SetupIncomplete`
error value; they hit the `unwrap` panic (modelled as `none`). -/
theorem uninitialized_counterexample :
    createWitness none [1] 0 = none ∧ verifyEvaluation none 0 0 0 0 = none := by
  constructor
  · decide
  · rfl

/-- Claim C9 (amended): every random scalar the scheme draws — the trapdoor
`tau` in `setup` and each padding coefficient in `adjust_to_degree` — is a
uniform 64-bit integer cast into the field via `scalarFromU64`. Its support is
`{0, …, 2^64 - 1}`, a strict subset of the scalar field: some field element is
never sampled. -/
theorem randomness_u64_image :
    (∀ u : ℕ, (scalarFromU64 u).val < 2 ^ 64)
    ∧ (∃ s : Scalar, ∀ u : ℕ, scalarFromU64 u ≠ s) := by
  constructor
  · intro u
    rw [scalarFromU64_val]
    exact Nat.mod_lt _ (by norm_num)
  · refine ⟨((2 ^ 64 : ℕ) : Scalar), ?_⟩
    intro u h
    have h1 := scalarFromU64_val u
    rw [h, two_pow64_val] at h1
    have h2 := Nat.mod_lt u (show 0 < 2 ^ 64 by norm_num)
    omega

/-- Counterexample to C9 as stated: the sampling is not uniform over the full
scalar field — the field element `2^64` is outside the support, so not every
scalar can be drawn. -/
theorem randomness_not_full_field :
    ¬ (∀ s : Scalar, ∃ u : ℕ, scalarFromU64 u = s) := by
  intro hall
  obtain ⟨u, hu⟩ := hall (((2 : ℕ) ^ 64 : ℕ) : Scalar)
  have h1 := scalarFromU64_val u
  rw [hu, two_pow64_val] at h1
  have h2 := Nat.mod_lt u (show 0 < 2 ^ 64 by norm_num)
  omega

/-- Claim C10: `verify_evaluation` unconditionally reads `hs[1]`, so on a
scheme set up with `d < 2` every call panics (out of bounds, modelled `none`);
it is total exactly on states whose stored SRS has length at least 2. -/
theorem verify_needs_hs1 :
    (∀ seed d, d < 2 → ∀ (C : G1) (x y : Scalar) (W : G1),
        verifyEvaluation (some (setup seed d)) C x y W = none)
    ∧ (∀ gp : GlobalParameters, 2 ≤ gp.hs.length →
        ∀ (C : G1) (x y : Scalar) (W : G1),
          (verifyEvaluation (some gp) C x y W).isSome = true) := by
  constructor
  · intro seed d hd C x y W
    have hlen : (setup seed d).hs.length ≤ 1 := by
      have := generateTauPoints_length g2gen (scalarFromU64 seed) d
      show (generateTauPoints g2gen (scalarFromU64 seed) d).length ≤ 1
      omega
    have hget : (setup seed d).hs.get? 1 = none :=
      List.get?_eq_none.mpr (by omega)
    simp only [verifyEvaluation, hget]
  · intro gp hlen C x y W
    have hget := List.get?_eq_get (show 1 < gp.hs.length by omega)
    simp only [verifyEvaluation, hget, Option.isSome_some]

/-- Witness for C10: a `d = 1` setup panics in `verify_evaluation`, while a
length-2 SRS returns a boolean. -/
theorem verify_needs_hs1_witness :
    verifyEvaluation (some (setup 0 1)) 0 0 0 0 = none
    ∧ (verifyEvaluation (some ⟨[], [1, 1]⟩) 0 0 0 0).isSome = true :=
  ⟨verify_needs_hs1.1 0 1 (by decide) 0 0 0 0,
    verify_needs_hs1.2 ⟨[], [1, 1]⟩ (by decide) 0 0 0 0⟩

/-- Claim C2 (amended): for every Ready scheme state whose stored SRS actually
has an `hs[1]` entry, `verify_evaluation(C, i, y, W)` returns exactly the
boolean deciding
`pairing(C - y·G1gen, G2gen) = pairing(W, hs[1] - i·G2gen)`, with no error
channel.  (A Ready state with SRS length < 2 instead panics; see C10.) -/
theorem verify_pairing_check (gp : GlobalParameters) (C : G1) (x y : Scalar)
    (W : G1) (h1 : G2) (hh : gp.hs.get? 1 = some h1) :
    ∃ b : Bool, verifyEvaluation (some gp) C x y W = some b
      ∧ (b = true ↔ pairing (C + (-y) * g1gen) g2gen
          = pairing W (h1 + (-x) * g2gen)) := by
  refine ⟨_, verify_red gp C x y W h1 hh, ?_⟩
  exact ⟨of_decide_eq_true, decide_eq_true⟩

/-- Witness for C2's amended theorem at a concrete Ready state. -/
theorem verify_pairing_check_witness :
    ∃ b : Bool, verifyEvaluation (some ⟨[], [1, 2]⟩) 0 0 0 0 = some b
      ∧ (b = true ↔ pairing ((0 : G1) + (-(0 : Scalar)) * g1gen) g2gen
          = pairing 0 ((2 : G2) + (-(0 : Scalar)) * g2gen)) :=
  verify_pairing_check ⟨[], [1, 2]⟩ 0 0 0 0 2 rfl

/-- Counterexample to C2 as stated: a Ready scheme state (SRS present, of
length 1, as produced by `setup(1)`) on which `verify_evaluation` does not
return any boolean — it panics reading `hs[1]` (modelled `none`). -/
theorem verify_ready_panics_counterexample :
    verifyEvaluation (some ⟨[1], [1]⟩) 0 0 0 0 = none := rfl

/-- Claim C8 (amended): division returns the zero polynomial when the dividend
is zero, and when the dividend's stored length is below the divisor's; when
the dividend's degree (highest nonzero index) is below the divisor's but the
lengths are not, this still holds provided the divisor's stored leading
coefficient is nonzero — the quotient is then a nonempty all-zero vector.
(With a zero stored leading coefficient the code instead panics inverting it;
see the counterexample.) -/
theorem division_zero_cases (p dv : Poly) (c : Scalar) :
    (isZeroPoly p = true → divPoly p dv = some [0])
    ∧ (isZeroPoly p = false → isZeroPoly dv = false → p.length < dv.length →
        divPoly p dv = some [0])
    ∧ (isZeroPoly p = false → dv.getLast? = some c → c ≠ 0 →
        dv.length ≤ p.length → (∀ i, dv.length - 1 ≤ i → p.getD i 0 = 0) →
        ∃ q, divPoly p dv = some q ∧ isZeroPoly q = true ∧ q ≠ []) := by
  refine ⟨?_, ?_, ?_⟩
  · intro h
    exact divPoly_of_isZero p dv h
  · intro h1 h2 h3
    rw [divPoly, if_neg (by simp [h1]), if_neg (by simp [h2]), if_pos h3]
  · intro h1 h2 h3 h4 h5
    refine ⟨List.replicate (p.length - dv.length + 1) 0,
      divPoly_shortdeg p dv c h1 h2 h3 h4 h5, isZero_replicate _, ?_⟩
    intro hnil
    have hl := List.length_replicate (p.length - dv.length + 1) (0 : Scalar)
    rw [hnil] at hl
    simp at hl

/-- Witness for C8's amended theorem: all three cases at concrete inputs. -/
theorem division_zero_cases_witness :
    divPoly [] [1] = some [0]
    ∧ divPoly [5] [1, 1] = some [0]
    ∧ (∃ q, divPoly [1, 0, 0] [0, 1] = some q ∧ isZeroPoly q = true
        ∧ q ≠ []) := by
  refine ⟨(division_zero_cases [] [1] 1).1 (by decide),
    (division_zero_cases [5] [1, 1] 1).2.1 (by decide) (by decide) (by decide),
    (division_zero_cases [1, 0, 0] [0, 1] 1).2.2 (by decide) (by decide)
      (by decide) (by decide) ?_⟩
  intro i hi
  match i, hi with
  | 1, _ => decide
  | 2, _ => decide
  | (n + 3), _ => exact List.getD_eq_default _ _ (by simp)

/-- Counterexample to C8 as stated: dividend `[1, 0, 0]` has degree 0 and
divisor `[0, 1, 0]` has degree 1 (its highest nonzero coefficient sits below a
stored trailing zero), so the claim predicts the zero polynomial; the code
instead inverts the divisor's stored leading coefficient `0` and panics
(modelled `none`). -/
theorem division_trailing_zero_divisor_counterexample :
    divPoly [1, 0, 0] [0, 1, 0] = none := by decide

/-- Claim C6 (amended): `create_witness(p, i)` computes
`evaluation = p.evaluate(i)`, decreases `p`'s constant term by it, divides by
`[-i, 1]`, and — without any degree adjustment or random padding — commits the
quotient directly against the first `quotient.length` SRS elements, returning
that commitment together with the evaluation. -/
theorem createWitness_commits_quotient_prefix (gp : GlobalParameters)
    (p : Poly) (x : Scalar) (hp : p ≠ []) (hgs : 1 ≤ gp.gs.length)
    (hlen : p.length ≤ gp.gs.length + 1) :
    ∃ q, divPoly (p.set 0 (p.getD 0 0 - evaluate p x)) [-x, 1] = some q
      ∧ q.length ≤ gp.gs.length
      ∧ createWitness (some gp) p x
          = some (multiExp (gp.gs.take q.length) q, evaluate p x) := by
  by_cases hz : isZeroPoly (p.set 0 (p.getD 0 0 - evaluate p x)) = true
  · have hdiv := divPoly_of_isZero (p.set 0 (p.getD 0 0 - evaluate p x))
      [-x, 1] hz
    have hle : ([0] : Poly).length ≤ gp.gs.length := by simpa using hgs
    exact ⟨[0], hdiv, hle, createWitness_red gp p x hp [0] hdiv hle⟩
  · have hzf : isZeroPoly (p.set 0 (p.getD 0 0 - evaluate p x)) = false :=
      Bool.eq_false_iff.mpr hz
    have hplen : 2 ≤ p.length := by
      by_contra hcon
      have h1 : p.length = 1 := by
        have := List.length_pos.mpr hp
        omega
      obtain ⟨a, ha⟩ := List.length_eq_one.mp h1
      rw [ha, witness_dividend_singleton a x] at hzf
      have htrue : isZeroPoly [0] = true := by decide
      rw [htrue] at hzf
      exact Bool.noConfusion hzf
    have hwpl : (p.set 0 (p.getD 0 0 - evaluate p x)).length = p.length :=
      List.length_set p _ _
    obtain ⟨q, hdiv, hqlen, _⟩ := divPoly_linear x _ hzf (by omega)
    have hle : q.length ≤ gp.gs.length := by
      rw [hqlen, hwpl]
      omega
    exact ⟨q, hdiv, hle, createWitness_red gp p x hp q hdiv hle⟩

/-- Witness for C6's amended theorem at a concrete Ready state. -/
theorem createWitness_commits_quotient_prefix_witness :
    ∃ q, divPoly (([1, 2, 3] : Poly).set 0 (([1, 2, 3] : Poly).getD 0 0
        - evaluate [1, 2, 3] 5)) [-(5 : Scalar), 1] = some q
      ∧ q.length ≤ ([1, 1] : List G1).length
      ∧ createWitness (some ⟨[1, 1], []⟩) [1, 2, 3] 5
          = some (multiExp (([1, 1] : List G1).take q.length) q,
              evaluate [1, 2, 3] 5) :=
  createWitness_commits_quotient_prefix ⟨[1, 1], []⟩ [1, 2, 3] 5 (by decide)
    (by decide) (by decide)

/-- Counterexample to C6 as stated: on the Ready state from `setup` with seed
2 and `d = 3`, for `p = [1, 2, 3]`, `i = 5`, the procedure described by the
spec (degree-adjust the quotient to the SRS length with a random padding
coefficient, here the legitimate `u64` draw `1`, then `commit`) produces a
different witness than the code, which commits the unpadded quotient against
an SRS prefix. -/
theorem createWitness_no_padding_counterexample :
    createWitnessSpec (setup 2 3) [1, 2, 3] 5 (fun _ => 1)
      ≠ createWitness (some (setup 2 3)) [1, 2, 3] 5 := by
  have hwp : (([1, 2, 3] : Poly).set 0 (([1, 2, 3] : Poly).getD 0 0
      - evaluate [1, 2, 3] 5)) = [-85, 2, 3] := by decide
  have hdiv : divPoly [(-85 : Scalar), 2, 3] [-(5 : Scalar), 1]
      = some [17, 3] := by
    rw [divPoly_linear_red 5 [(-85 : Scalar), 2, 3] (by decide) (by decide)]
    decide
  simp only [createWitnessSpec, createWitness, hwp, hdiv]
  decide

/-- Claim C1 (amended): round-trip soundness holds whenever the SRS produced
by `setup(d)` has `d ≥ 2`: committing `p` (sized to the SRS), creating a
witness at any point `x`, and verifying yields `true`.  (For `d < 2` the
round trip instead panics inside `verify_evaluation` reading `hs[1]`; see the
counterexample and C10.) -/
theorem roundtrip_soundness (seed d : ℕ) (hd : 2 ≤ d) (p : Poly)
    (hp : p.length = d) (x : Scalar) :
    ∃ C W, commit (some (setup seed d)) p = Except.ok C
      ∧ createWitness (some (setup seed d)) p x = some (W, evaluate p x)
      ∧ verifyEvaluation (some (setup seed d)) C x (evaluate p x) W
          = some true := by
  have hd1 : 1 ≤ d := by omega
  have hgs : (setup seed d).gs
      = (List.range d).map (fun i => (scalarFromU64 seed) ^ i) :=
    setup_gs seed d hd1
  have hgslen : (setup seed d).gs.length = d := by
    rw [hgs, List.length_map, List.length_range]
  have hget : (setup seed d).hs.get? 1 = some (scalarFromU64 seed) :=
    setup_hs_get1 seed d hd
  have hpne : p ≠ [] := by
    intro h
    rw [h] at hp
    simp at hp
    omega
  have hwp_eval := hEval_witness_dividend p x hpne
  have hcommitC : commit (some (setup seed d)) p
      = Except.ok (multiExp (setup seed d).gs p) := commit_red _ p (by omega)
  have hCval : multiExp (setup seed d).gs p = hEval p (scalarFromU64 seed) := by
    rw [hgs]
    exact multiExp_powers _ p d (by omega)
  have hyx : evaluate p x = hEval p x := evaluate_eq_hEval p x
  by_cases hz : isZeroPoly (p.set 0 (p.getD 0 0 - evaluate p x)) = true
  · have hdiv := divPoly_of_isZero (p.set 0 (p.getD 0 0 - evaluate p x))
      [-x, 1] hz
    have hq1 : ([0] : Poly).length ≤ (setup seed d).gs.length := by
      rw [hgslen]
      show 1 ≤ d
      omega
    have hcw := createWitness_red (setup seed d) p x hpne [0] hdiv hq1
    have hW : multiExp ((setup seed d).gs.take ([0] : Poly).length) [0] = 0 := by
      rw [hgs]
      have h1 : (((List.range d).map (fun i => (scalarFromU64 seed) ^ i)).take
          ([0] : Poly).length)
          = (List.range 1).map (fun i => (scalarFromU64 seed) ^ i) := by
        rw [show ([0] : Poly).length = 1 from rfl, ← List.map_take,
          List.take_range, min_eq_left (by omega)]
      rw [h1, multiExp_powers _ [0] 1 (by decide)]
      simp [hEval]
    have hptau : hEval p (scalarFromU64 seed) = evaluate p x := by
      have h0 := hEval_zero_of_isZero hz (scalarFromU64 seed)
      rw [hwp_eval (scalarFromU64 seed), sub_eq_zero] at h0
      exact h0
    refine ⟨_, _, hcommitC, hcw, ?_⟩
    rw [verify_red _ _ _ _ _ _ hget]
    have heq : pairing (multiExp (setup seed d).gs p
          + (-(evaluate p x)) * g1gen) g2gen
        = pairing (multiExp ((setup seed d).gs.take ([0] : Poly).length) [0])
            ((scalarFromU64 seed) + (-x) * g2gen) := by
      rw [hCval, hptau, hW]
      simp only [pairing, g1gen, g2gen]
      ring
    exact congrArg some (decide_eq_true heq)
  · have hzf : isZeroPoly (p.set 0 (p.getD 0 0 - evaluate p x)) = false :=
      Bool.eq_false_iff.mpr hz
    have hwplen : (p.set 0 (p.getD 0 0 - evaluate p x)).length = p.length :=
      List.length_set p _ _
    obtain ⟨q, hdiv, hqlen, hqev⟩ := divPoly_linear x _ hzf (by omega)
    have hqlen' : q.length = d - 1 := by rw [hqlen, hwplen, hp]
    have hqle : q.length ≤ (setup seed d).gs.length := by
      rw [hqlen', hgslen]
      omega
    have hcw := createWitness_red (setup seed d) p x hpne q hdiv hqle
    have hW : multiExp ((setup seed d).gs.take q.length) q
        = hEval q (scalarFromU64 seed) := by
      rw [hgs, ← List.map_take, List.take_range,
        min_eq_left (by omega : q.length ≤ d)]
      exact multiExp_powers _ q q.length le_rfl
    have hkey : hEval q (scalarFromU64 seed) * ((scalarFromU64 seed) - x)
        = hEval p (scalarFromU64 seed) - evaluate p x := by
      have h1 := hqev (scalarFromU64 seed)
      rw [hwp_eval (scalarFromU64 seed), hwp_eval x] at h1
      rw [hyx] at h1 ⊢
      linear_combination h1
    refine ⟨_, _, hcommitC, hcw, ?_⟩
    rw [verify_red _ _ _ _ _ _ hget]
    have heq : pairing (multiExp (setup seed d).gs p
          + (-(evaluate p x)) * g1gen) g2gen
        = pairing (multiExp ((setup seed d).gs.take q.length) q)
            ((scalarFromU64 seed) + (-x) * g2gen) := by
      rw [hCval, hW]
      simp only [pairing, g1gen, g2gen]
      linear_combination -hkey
    exact congrArg some (decide_eq_true heq)

/-- Witness for C1's amended theorem: a full round trip at `d = 2`. -/
theorem roundtrip_soundness_witness :
    ∃ C W, commit (some (setup 0 2)) [0, 1] = Except.ok C
      ∧ createWitness (some (setup 0 2)) [0, 1] 3 = some (W, evaluate [0, 1] 3)
      ∧ verifyEvaluation (some (setup 0 2)) C 3 (evaluate [0, 1] 3) W
          = some true :=
  roundtrip_soundness 0 2 (by decide) [0, 1] rfl 3

/-- Counterexample to C1 as stated: with the SRS from `setup(1)` and a
polynomial sized to it, commit and create_witness succeed but the final
`verify_evaluation` call panics reading `hs[1]` (modelled `none`) instead of
returning `true`. -/
theorem roundtrip_d1_counterexample :
    commit (some (setup 7 1)) [5]
        = Except.ok (multiExp (setup 7 1).gs [5])
    ∧ createWitness (some (setup 7 1)) [5] 3 = some (0, evaluate [5] 3)
    ∧ verifyEvaluation (some (setup 7 1)) (multiExp (setup 7 1).gs [5]) 3
        (evaluate [5] 3) 0 = none :=
  ⟨rfl, rfl, rfl⟩

end KZG
